import Mathlib

/-!
Shallow embedding of the assignment-pool core of `src/main_API.py`:
the `ServerPool` class (association-list model of its `OrderedDict` /
`dict` state, one logical timestamp `now` per public call) and the static
branch of `SmartIPRotator.report_success` / `report_error`.
-/

namespace MainAPI

/-- Config constant `SERVER_TTL = 300`: available records expire after 300 s. -/
def SERVER_TTL : Int := 300

/-- Config constant `GIVEN_TTL = 300`: leases expire after 300 s. -/
def GIVEN_TTL : Int := 300

/-- One value of the `self._available` ordered dictionary: the tuple
`(players, added_time, priority)` stored by `ServerPool.add_servers`. -/
structure ServerEntry where
  players : Int
  addedAt : Int
  priority : Int
deriving DecidableEq

/-- Python `key in dict`. -/
def containsKey {α : Type} (l : List (String × α)) (k : String) : Bool :=
  l.any (fun kv => kv.1 == k)

/-- Python `del dict[key]`: removes the binding of `k` (identity when the
guarding `if key in dict` fails, i.e. when `k` is absent). -/
def eraseKey {α : Type} (l : List (String × α)) (k : String) : List (String × α) :=
  l.eraseP (fun kv => kv.1 == k)

/-- Python `dict[key] = v`: update in place when the key is present
(insertion order kept), append when new. -/
def setKey {α : Type} (l : List (String × α)) (k : String) (v : α) : List (String × α) :=
  if containsKey l k then l.map (fun kv => if kv.1 == k then (kv.1, v) else kv)
  else l ++ [(k, v)]

/-- The `self._stats` counter dictionary of `ServerPool.__init__`. -/
structure PoolStats where
  total_given : Nat := 0
  total_received : Nat := 0
  recycled : Nat := 0
  duplicates_skipped : Nat := 0
  dead_skipped : Nat := 0
  fetch_errors : Nat := 0
  fetch_success : Nat := 0
  peak_servers : Nat := 0
  normal_servers : Nat := 0
deriving DecidableEq

/-- The mutable state of a `ServerPool` instance: `_available` (an
`OrderedDict` of id to `(players, added_time, priority)`), `_assigned`
(id to lease time), `_dead` (id to report time) and the counters. -/
structure ServerPool where
  available : List (String × ServerEntry) := []
  assigned : List (String × Int) := []
  dead : List (String × Int) := []
  stats : PoolStats := {}
deriving DecidableEq

/-- `ServerPool.__init__`: all three sets empty, all counters zero. -/
def initPool : ServerPool := {}

/-- `ServerPool._cleanup`: drop dead entries older than 600 s, drop
(`recycle`) assigned entries older than `GIVEN_TTL`, drop available
entries older than `SERVER_TTL`; count the recycled leases (the source
increments the counter only when the count is nonzero, which agrees with
always adding the count). -/
def cleanup (p : ServerPool) (now : Int) : ServerPool :=
  let dead' := p.dead.filter (fun kv => !decide (now - kv.2 > 600))
  let recycled := (p.assigned.filter (fun kv => decide (now - kv.2 > GIVEN_TTL))).length
  let assigned' := p.assigned.filter (fun kv => !decide (now - kv.2 > GIVEN_TTL))
  let available' := p.available.filter (fun kv => !decide (now - kv.2.addedAt > SERVER_TTL))
  { p with dead := dead', assigned := assigned', available := available',
           stats := { p.stats with recycled := p.stats.recycled + recycled } }

/-- One element of the `servers` argument of `add_servers`: a bare string,
a dict (fields `id`, `job_id`, `playing`, `players`, each possibly absent),
or any other value (skipped by the `isinstance` chain). -/
inductive RawItem where
  | strItem (s : String)
  | dictItem (id : Option String) (job_id : Option String)
      (playing : Option Int) (players : Option Int)
  | badItem
deriving DecidableEq

/-- Python truthy `or` on optional strings, as in
`item.get('id') or item.get('job_id')`: an absent or empty left operand
falls through to the right operand. -/
def pyOr (a b : Option String) : Option String :=
  match a with
  | some s => if s = "" then b else some s
  | none => b

/-- Head of the `add_servers` loop body: compute `job_id` and `players`
for one item; `none` exactly when the loop `continue`s before the dead
check (non-str non-dict item, or falsy `job_id`). -/
def itemResolve : RawItem → Option (String × Int)
  | .strItem s => if s = "" then none else some (s, 0)
  | .dictItem id job_id playing players =>
    match pyOr id job_id with
    | none => none
    | some s => if s = "" then none else some (s, playing.getD (players.getD 0))
  | .badItem => none

/-- The banding function of `add_servers`: players 6 or 7 score 100,
players 5 scores 50, anything else (only reached for players above 7,
because of the `players < 5` admission check) scores 10. -/
def priorityOf (players : Int) : Int :=
  if players = 6 ∨ players = 7 then 100
  else if players = 5 then 50
  else 10

/-- The `for item in servers` loop of `add_servers`, threading the
`_available` dictionary and the `added`, `duplicates`, `dead` counters;
`_dead` and `_assigned` are only read inside the loop. -/
def addLoop (deadL assignedL : List (String × Int)) (now : Int) :
    List RawItem → List (String × ServerEntry) → Nat → Nat → Nat →
    List (String × ServerEntry) × Nat × Nat × Nat
  | [], avail, added, dups, deadC => (avail, added, dups, deadC)
  | item :: rest, avail, added, dups, deadC =>
    match itemResolve item with
    | none => addLoop deadL assignedL now rest avail added dups deadC
    | some (job_id, players) =>
      if containsKey deadL job_id then
        addLoop deadL assignedL now rest avail added dups (deadC + 1)
      else if containsKey assignedL job_id then
        addLoop deadL assignedL now rest avail added (dups + 1) deadC
      else if containsKey avail job_id then
        addLoop deadL assignedL now rest avail added (dups + 1) deadC
      else if players < 5 then
        addLoop deadL assignedL now rest avail added dups deadC
      else
        addLoop deadL assignedL now rest
          (setKey avail job_id ⟨players, now, priorityOf players⟩)
          (added + 1) dups deadC

/-- `ServerPool.add_servers`: cleanup, run the admission loop, update the
counters, and return `(added, duplicates, dead, len(servers))` together
with the new pool state. `isPeak` stands for the `is_peak_hours()` wall
clock read taken at the top of the method. -/
def add_servers (p : ServerPool) (servers : List RawItem) (now : Int) (isPeak : Bool) :
    (Nat × Nat × Nat × Nat) × ServerPool :=
  let p := cleanup p now
  let r := addLoop p.dead p.assigned now servers p.available 0 0 0
  let avail' := r.1
  let added := r.2.1
  let dups := r.2.2.1
  let deadC := r.2.2.2
  let stats := { p.stats with
    total_received := p.stats.total_received + added,
    duplicates_skipped := p.stats.duplicates_skipped + dups,
    dead_skipped := p.stats.dead_skipped + deadC }
  let stats := if isPeak then { stats with peak_servers := stats.peak_servers + added }
               else { stats with normal_servers := stats.normal_servers + added }
  ((added, dups, deadC, servers.length), { p with available := avail', stats := stats })

/-- The Python sort key comparison of `get_server` / `get_batch`:
`(priority, -added_time)` compared lexicographically, `a` before `b` in
the `reverse=True` order iff this returns `true`. -/
def keyGe (a b : ServerEntry) : Bool :=
  decide (b.priority < a.priority) ||
    (a.priority == b.priority && decide (-b.addedAt ≤ -a.addedAt))

/-- Insert one element into a descending-sorted list, after every element
whose key is strictly greater and before the first element it compares
greater-or-equal against (so an earlier list element precedes later
elements with an equal key: stability). -/
def insEntry (x : String × ServerEntry) :
    List (String × ServerEntry) → List (String × ServerEntry)
  | [] => [x]
  | y :: ys => if keyGe x.2 y.2 then x :: y :: ys else y :: insEntry x ys

/-- Model of `sorted(self._available.items(), key=lambda x: (x[1][2], -x[1][1]),
reverse=True)`: a stable sort, greatest `(priority, -added_time)` key first,
insertion order kept between equal keys. -/
def sortServers : List (String × ServerEntry) → List (String × ServerEntry)
  | [] => []
  | x :: xs => insEntry x (sortServers xs)

/-- The dict returned by `ServerPool.get_server`. -/
structure GivenServer where
  job_id : String
  players : Int
  priority : Int
  age : Int
  pool_size : Nat
deriving DecidableEq

/-- The selection loop of `get_server`: first entry of the sorted
available list whose id is not in `_dead` (entries in `_dead` are
`continue`d over and left in place). -/
def selectServer (p : ServerPool) : Option (String × ServerEntry) :=
  (sortServers p.available).find? (fun kv => !containsKey p.dead kv.1)

/-- `ServerPool.get_server`: cleanup, pick the best non-dead available
record, move it to `_assigned` with lease time `now`, bump `total_given`,
and return its dict (with `pool_size` read after the deletion); `none`
when nothing is selectable. -/
def get_server (p : ServerPool) (now : Int) : Option GivenServer × ServerPool :=
  let p := cleanup p now
  match selectServer p with
  | none => (none, p)
  | some (job_id, e) =>
    let available' := eraseKey p.available job_id
    (some { job_id := job_id, players := e.players, priority := e.priority,
            age := now - e.addedAt, pool_size := available'.length },
     { p with available := available',
              assigned := setKey p.assigned job_id now,
              stats := { p.stats with total_given := p.stats.total_given + 1 } })

/-- One element of the list returned by `ServerPool.get_batch`
(no `pool_size` field, unlike `get_server`). -/
structure BatchServer where
  job_id : String
  players : Int
  priority : Int
  age : Int
deriving DecidableEq

/-- The `for job_id ... in sorted_servers` loop of `get_batch`: stop once
`len(results) >= count`, skip (and keep) dead ids, otherwise move the
entry to `_assigned`, bump `total_given` and append its dict. -/
def scanBatch (now : Int) (count : Nat) :
    List (String × ServerEntry) → ServerPool → List BatchServer →
    List BatchServer × ServerPool
  | [], p, acc => (acc, p)
  | (job_id, e) :: rest, p, acc =>
    if count ≤ acc.length then (acc, p)
    else if containsKey p.dead job_id then scanBatch now count rest p acc
    else
      let available' := eraseKey p.available job_id
      let p' := { p with available := available',
                         assigned := setKey p.assigned job_id now,
                         stats := { p.stats with total_given := p.stats.total_given + 1 } }
      scanBatch now count rest p'
        (acc ++ [{ job_id := job_id, players := e.players, priority := e.priority,
                   age := now - e.addedAt }])

/-- `ServerPool.get_batch`: cleanup, early return on an empty available
set, otherwise run the selection loop over the sorted snapshot. -/
def get_batch (p : ServerPool) (count : Nat) (now : Int) :
    List BatchServer × ServerPool :=
  let p := cleanup p now
  if p.available.isEmpty then ([], p)
  else scanBatch now count (sortServers p.available) p []

/-- `ServerPool.report_dead`: record the id in `_dead` with the report
time and delete it from `_available` and `_assigned` (the source guards
each `del` with a membership test; deletion of an absent key is the
identity either way). -/
def report_dead (p : ServerPool) (job_id : String) (now : Int) : ServerPool :=
  { p with dead := setKey p.dead job_id now,
           available := eraseKey p.available job_id,
           assigned := eraseKey p.assigned job_id }

/-- `ServerPool.release_server`: delete the id from `_assigned` when
present; nothing else changes. -/
def release_server (p : ServerPool) (job_id : String) : ServerPool :=
  { p with assigned := eraseKey p.assigned job_id }

/-- `ServerPool.count`: cleanup, then the size of `_available`. -/
def poolCount (p : ServerPool) (now : Int) : Nat × ServerPool :=
  let p := cleanup p now
  (p.available.length, p)

/-- The dict returned by `ServerPool.get_stats`. -/
structure StatsSnapshot where
  available : Nat
  assigned : Nat
  dead : Nat
  total_given : Nat
  total_received : Nat
  recycled : Nat
  duplicates_skipped : Nat
  dead_skipped : Nat
  fetch_errors : Nat
  fetch_success : Nat
  peak_servers : Nat
  normal_servers : Nat
  ttl_seconds : Int
deriving DecidableEq

/-- `ServerPool.get_stats`: cleanup, then a read-only snapshot. -/
def get_stats (p : ServerPool) (now : Int) : StatsSnapshot × ServerPool :=
  let p := cleanup p now
  ({ available := p.available.length, assigned := p.assigned.length,
     dead := p.dead.length,
     total_given := p.stats.total_given, total_received := p.stats.total_received,
     recycled := p.stats.recycled, duplicates_skipped := p.stats.duplicates_skipped,
     dead_skipped := p.stats.dead_skipped, fetch_errors := p.stats.fetch_errors,
     fetch_success := p.stats.fetch_success, peak_servers := p.stats.peak_servers,
     normal_servers := p.stats.normal_servers, ttl_seconds := SERVER_TTL }, p)

/-- Spec-side comparator for the batch claim: `n` repeated `get_server`
calls at one instant, stopping at the first empty result. -/
def takeRepeat : Nat → ServerPool → Int → List GivenServer × ServerPool
  | 0, p, _ => ([], p)
  | n + 1, p, now =>
    match get_server p now with
    | (none, p') => ([], p')
    | (some r, p') =>
      let rp := takeRepeat n p' now
      (r :: rp.1, rp.2)

/-- One value of `SmartIPRotator.static_status`: the health record of one
static endpoint. -/
structure IPStatus where
  usage : Nat := 0
  success : Nat := 0
  errors : Nat := 0
  last_error : Int := 0
  cooldown_until : Int := 0
  consecutive_errors : Nat := 0
deriving DecidableEq

/-- The static branch of `SmartIPRotator.report_success`: bump `success`,
reset `consecutive_errors`, and when a cooldown is outstanding move
`cooldown_until` back by 10 s, clamped at 0. -/
def report_success_static (st : IPStatus) : IPStatus :=
  let st := { st with success := st.success + 1, consecutive_errors := 0 }
  if 0 < st.cooldown_until then { st with cooldown_until := max 0 (st.cooldown_until - 10) }
  else st

/-- The static branch of `SmartIPRotator.report_error`: bump `errors`,
stamp `last_error`, bump `consecutive_errors`, and on a rate limit or at
2 or more consecutive errors set `cooldown_until` to `now` plus
`min (30 + consecutive * 15) 120`. -/
def report_error_static (st : IPStatus) (now : Int) (is_rate_limit : Bool) : IPStatus :=
  let st := { st with errors := st.errors + 1, last_error := now,
                      consecutive_errors := st.consecutive_errors + 1 }
  if is_rate_limit || decide (2 ≤ st.consecutive_errors) then
    { st with cooldown_until := now + min (30 + (st.consecutive_errors : Int) * 15) 120 }
  else st

/-- Keys of an association list are distinct, as in a Python `dict`. -/
def NodupKeys {α : Type} (l : List (String × α)) : Prop := (l.map Prod.fst).Nodup

instance {α : Type} (l : List (String × α)) : Decidable (NodupKeys l) :=
  inferInstanceAs (Decidable (l.map Prod.fst).Nodup)

/-- A pool state with no expired dead entry, lease, or available record at
time `now`; `_cleanup` at `now` leaves exactly such states unchanged. -/
def IsClean (now : Int) (p : ServerPool) : Prop :=
  (∀ kv ∈ p.dead, now - kv.2 ≤ 600) ∧
  (∀ kv ∈ p.assigned, now - kv.2 ≤ GIVEN_TTL) ∧
  (∀ kv ∈ p.available, now - kv.2.addedAt ≤ SERVER_TTL)

/-- Dict-model well-formedness plus the mutual-exclusion invariant of the
pool state: distinct keys inside each dict (as Python guarantees), no
Available id in the Leased or Dead sets, and no Leased id in the Dead
set. -/
def PoolInv (p : ServerPool) : Prop :=
  NodupKeys p.available ∧ NodupKeys p.assigned ∧ NodupKeys p.dead ∧
  (∀ kv ∈ p.available,
    containsKey p.assigned kv.1 = false ∧ containsKey p.dead kv.1 = false) ∧
  (∀ kv ∈ p.assigned, containsKey p.dead kv.1 = false)

instance (p : ServerPool) : Decidable (PoolInv p) :=
  inferInstanceAs (Decidable (NodupKeys p.available ∧ NodupKeys p.assigned ∧
    NodupKeys p.dead ∧
    (∀ kv ∈ p.available,
      containsKey p.assigned kv.1 = false ∧ containsKey p.dead kv.1 = false) ∧
    (∀ kv ∈ p.assigned, containsKey p.dead kv.1 = false)))

/-- Every id is in at most one of the three sets: no id is simultaneously
Available and Leased, Available and Dead, or Leased and Dead. -/
def SetsDisjoint (p : ServerPool) : Prop :=
  ∀ id : String,
    ¬(containsKey p.available id = true ∧ containsKey p.assigned id = true) ∧
    ¬(containsKey p.available id = true ∧ containsKey p.dead id = true) ∧
    ¬(containsKey p.assigned id = true ∧ containsKey p.dead id = true)

/-- Sortedness in the `reverse=True` order of the Python sort: every
element's `(priority, -added_time)` key is greater-or-equal to the keys
of all elements after it. -/
def SortedDesc (l : List (String × ServerEntry)) : Prop :=
  l.Pairwise (fun a b => keyGe a.2 b.2 = true)

/-- A single discovery item carrying an id and a player count, the shape
sent by the fetcher and the `add-pool` route. -/
def mkItem (id : String) (players : Int) : RawItem :=
  .dictItem (some id) none (some players) none

/-- Scenario pool: id `"A"` admitted with 6 players at time 0. -/
def poolA : ServerPool := (add_servers initPool [mkItem "A" 6] 0 false).2

/-- Scenario pool: `poolA` after `"A"` is leased by `get_server` at time 0. -/
def poolALeased : ServerPool := (get_server poolA 0).2

/-- Scenario pool: `poolALeased` after `release_server("A")`. -/
def poolAReleased : ServerPool := release_server poolALeased "A"

/-- Scenario item list of the priority-ordering claim: metrics 2, 5, 6, 8
discovered at the same time. -/
def bandItems : List RawItem :=
  [mkItem "m2" 2, mkItem "m5" 5, mkItem "m6" 6, mkItem "m8" 8]

/-- Scenario pool: the banding items admitted into an empty pool at time 0. -/
def bandPool : ServerPool := (add_servers initPool bandItems 0 false).2

/-- Scenario pool for the tie-break: two records with 8 players (equal
priority band), one discovered at time 0 and one at time 5. -/
def tiePool : ServerPool :=
  (add_servers (add_servers initPool [mkItem "older" 8] 0 false).2
    [mkItem "newer" 8] 5 false).2

/-- Scenario pool: `"B"` admitted at time 0 and `"C"` admitted at time
300; at time 301 the record `"B"` is expired and `"C"` is not. -/
def mixPool : ServerPool :=
  (add_servers (add_servers initPool [mkItem "B" 6] 0 false).2 [mkItem "C" 6] 300 false).2

/-- Scenario pool with five records of mixed priority bands admitted at
time 0. -/
def batchPool : ServerPool :=
  (add_servers initPool
    [mkItem "a" 5, mkItem "b" 6, mkItem "c" 8, mkItem "d" 7, mkItem "e" 9] 0 false).2

/-- Scenario pool: `"X"` dead-reported at time 0 on an empty pool. -/
def deadPool : ServerPool := report_dead initPool "X" 0

/-! ### Association-list lemmas (the Python `dict` model) -/

theorem containsKey_eq_true {α : Type} {l : List (String × α)} {k : String} :
    containsKey l k = true ↔ ∃ v, (k, v) ∈ l := by
  constructor
  · intro h
    obtain ⟨⟨k', v⟩, hm, he⟩ := List.any_eq_true.mp h
    obtain rfl : k' = k := by simpa using he
    exact ⟨v, hm⟩
  · rintro ⟨v, hv⟩
    exact List.any_eq_true.mpr ⟨(k, v), hv, by simp⟩

theorem containsKey_eq_false {α : Type} {l : List (String × α)} {k : String} :
    containsKey l k = false ↔ ∀ v, (k, v) ∉ l := by
  rw [← Bool.not_eq_true, containsKey_eq_true]
  push_neg
  exact Iff.rfl

theorem mem_keys_iff {α : Type} {l : List (String × α)} {k : String} :
    k ∈ l.map Prod.fst ↔ containsKey l k = true := by
  rw [containsKey_eq_true]
  simp only [List.mem_map]
  constructor
  · rintro ⟨⟨k', v⟩, hm, rfl⟩
    exact ⟨v, hm⟩
  · rintro ⟨v, hv⟩
    exact ⟨(k, v), hv, rfl⟩

theorem containsKey_cons {α : Type} {k' k : String} {v : α} {l : List (String × α)} :
    containsKey ((k', v) :: l) k = ((k' == k) || containsKey l k) := by
  simp [containsKey]

theorem containsKey_of_sublist {α : Type} {l₁ l₂ : List (String × α)} {k : String}
    (hs : l₁.Sublist l₂) (h : containsKey l₁ k = true) : containsKey l₂ k = true := by
  obtain ⟨v, hv⟩ := containsKey_eq_true.mp h
  exact containsKey_eq_true.mpr ⟨v, hs.subset hv⟩

theorem NodupKeys_of_sublist {α : Type} {l₁ l₂ : List (String × α)}
    (hs : l₁.Sublist l₂) (h : NodupKeys l₂) : NodupKeys l₁ :=
  List.Nodup.sublist (List.Sublist.map Prod.fst hs) h

theorem nodupKeys_cons {α : Type} {k : String} {v : α} {l : List (String × α)} :
    NodupKeys ((k, v) :: l) ↔ containsKey l k = false ∧ NodupKeys l := by
  simp only [NodupKeys, List.map_cons, List.nodup_cons, mem_keys_iff]
  constructor
  · rintro ⟨h1, h2⟩
    exact ⟨by simpa using h1, h2⟩
  · rintro ⟨h1, h2⟩
    exact ⟨by simp [h1], h2⟩

theorem eraseKey_sublist {α : Type} (l : List (String × α)) (k : String) :
    (eraseKey l k).Sublist l := List.eraseP_sublist l

theorem containsKey_eraseKey_self {α : Type} {l : List (String × α)} {k : String}
    (h : NodupKeys l) : containsKey (eraseKey l k) k = false := by
  induction l with
  | nil => rfl
  | cons x xs ih =>
    obtain ⟨kx, vx⟩ := x
    rcases nodupKeys_cons.mp h with ⟨hk, hnd⟩
    by_cases hek : kx = k
    · subst hek
      rw [eraseKey, List.eraseP_cons_of_pos (by simp)]
      exact hk
    · rw [eraseKey, List.eraseP_cons_of_neg (by simp [hek])]
      rw [show List.eraseP (fun kv => kv.1 == k) xs = eraseKey xs k from rfl,
        containsKey_cons, ih hnd]
      simp [hek]

theorem setKey_of_not_containsKey {α : Type} {l : List (String × α)} {k : String} {v : α}
    (h : containsKey l k = false) : setKey l k v = l ++ [(k, v)] := by
  simp [setKey, h]

theorem keys_setKey {α : Type} (l : List (String × α)) (k : String) (v : α) :
    (setKey l k v).map Prod.fst =
      if containsKey l k = true then l.map Prod.fst else l.map Prod.fst ++ [k] := by
  by_cases h : containsKey l k = true
  · simp only [setKey, h, if_true]
    rw [List.map_map]
    have he : ∀ kv : String × α,
        (Prod.fst ∘ fun kv => if kv.1 == k then (kv.1, v) else kv) kv = Prod.fst kv := by
      intro kv
      by_cases hkv : kv.1 = k <;> simp [hkv]
    exact List.map_congr_left (fun kv _ => he kv)
  · simp [setKey, h]

theorem nodupKeys_setKey {α : Type} {l : List (String × α)} {k : String} {v : α}
    (h : NodupKeys l) : NodupKeys (setKey l k v) := by
  unfold NodupKeys
  rw [keys_setKey]
  split
  · exact h
  · next hc =>
    refine List.Nodup.append h (List.nodup_singleton k) ?_
    intro a ha hb
    rw [List.mem_singleton] at hb
    subst hb
    rw [mem_keys_iff] at ha
    simp [ha] at hc

theorem mem_setKey {α : Type} {l : List (String × α)} {k : String} {v : α} {x : String × α}
    (hx : x ∈ setKey l k v) : x ∈ l ∨ x = (k, v) := by
  by_cases h : containsKey l k = true
  · simp only [setKey, h, if_true, List.mem_map] at hx
    obtain ⟨kv, hkv, rfl⟩ := hx
    by_cases hk : kv.1 == k
    · right
      have : kv.1 = k := by simpa using hk
      simp [hk, this]
    · left
      simpa [hk] using hkv
  · rw [setKey_of_not_containsKey (by simpa using h)] at hx
    rcases List.mem_append.mp hx with h1 | h1
    · exact Or.inl h1
    · exact Or.inr (by simpa using h1)

theorem nodupKeys_mem_unique {α : Type} {l : List (String × α)} {k : String} {v v' : α}
    (h : NodupKeys l) (h1 : (k, v) ∈ l) (h2 : (k, v') ∈ l) : v = v' := by
  induction l with
  | nil => cases h1
  | cons x xs ih =>
    obtain ⟨kx, vx⟩ := x
    rcases nodupKeys_cons.mp h with ⟨hk, hnd⟩
    rcases List.mem_cons.mp h1 with h1' | h1'
    · rcases List.mem_cons.mp h2 with h2' | h2'
      · exact congrArg Prod.snd (h1'.trans h2'.symm)
      · obtain rfl : kx = k := (congrArg Prod.fst h1').symm
        exact absurd (containsKey_eq_true.mpr ⟨v', h2'⟩) (by simp [hk])
    · rcases List.mem_cons.mp h2 with h2' | h2'
      · obtain rfl : kx = k := (congrArg Prod.fst h2').symm
        exact absurd (containsKey_eq_true.mpr ⟨v, h1'⟩) (by simp [hk])
      · exact ih hnd h1' h2'

/-! ### Cleanup lemmas -/

theorem cleanup_isClean (p : ServerPool) (now : Int) : IsClean now (cleanup p now) := by
  refine ⟨?_, ?_, ?_⟩ <;> intro kv hm <;>
    simp only [cleanup] at hm
  · have := (List.mem_filter.mp hm).2
    simp at this
    omega
  · have := (List.mem_filter.mp hm).2
    simp [GIVEN_TTL] at this ⊢
    omega
  · have := (List.mem_filter.mp hm).2
    simp [SERVER_TTL] at this ⊢
    omega

theorem cleanup_eq_self {p : ServerPool} {now : Int} (h : IsClean now p) :
    cleanup p now = p := by
  obtain ⟨hd, ha, hv⟩ := h
  have h1 : p.dead.filter (fun kv => !decide (now - kv.2 > 600)) = p.dead :=
    List.filter_eq_self.mpr (by intro kv hm; simpa using hd kv hm)
  have h2 : p.assigned.filter (fun kv => decide (now - kv.2 > GIVEN_TTL)) = [] :=
    List.filter_eq_nil_iff.mpr (by intro kv hm; simpa using ha kv hm)
  have h3 : p.assigned.filter (fun kv => !decide (now - kv.2 > GIVEN_TTL)) = p.assigned :=
    List.filter_eq_self.mpr (by intro kv hm; simpa using ha kv hm)
  have h4 : p.available.filter (fun kv => !decide (now - kv.2.addedAt > SERVER_TTL)) =
      p.available :=
    List.filter_eq_self.mpr (by intro kv hm; simpa using hv kv hm)
  simp [cleanup, h1, h2, h3, h4]

theorem cleanup_nodupKeys {p : ServerPool} {now : Int}
    (h1 : NodupKeys p.available) (h2 : NodupKeys p.assigned) (h3 : NodupKeys p.dead) :
    NodupKeys (cleanup p now).available ∧ NodupKeys (cleanup p now).assigned ∧
      NodupKeys (cleanup p now).dead := by
  refine ⟨?_, ?_, ?_⟩ <;>
    exact NodupKeys_of_sublist (by simp only [cleanup]; exact List.filter_sublist _)
      (by assumption)

theorem cleanup_available_sublist (p : ServerPool) (now : Int) :
    (cleanup p now).available.Sublist p.available := by
  simp only [cleanup]
  exact List.filter_sublist _

theorem cleanup_assigned_sublist (p : ServerPool) (now : Int) :
    (cleanup p now).assigned.Sublist p.assigned := by
  simp only [cleanup]
  exact List.filter_sublist _

theorem cleanup_dead_sublist (p : ServerPool) (now : Int) :
    (cleanup p now).dead.Sublist p.dead := by
  simp only [cleanup]
  exact List.filter_sublist _

/-! ### Sort-order lemmas -/

theorem keyGe_refl (a : ServerEntry) : keyGe a a = true := by
  simp [keyGe]

theorem keyGe_total (a b : ServerEntry) : keyGe a b = true ∨ keyGe b a = true := by
  simp only [keyGe, Bool.or_eq_true, Bool.and_eq_true, decide_eq_true_eq, beq_iff_eq]
  omega

theorem keyGe_trans {a b c : ServerEntry} (h1 : keyGe a b = true) (h2 : keyGe b c = true) :
    keyGe a c = true := by
  simp only [keyGe, Bool.or_eq_true, Bool.and_eq_true, decide_eq_true_eq,
    beq_iff_eq] at h1 h2 ⊢
  omega

theorem insEntry_perm (x : String × ServerEntry) (l : List (String × ServerEntry)) :
    List.Perm (insEntry x l) (x :: l) := by
  induction l with
  | nil => exact List.Perm.refl _
  | cons y ys ih =>
    rw [insEntry]
    split
    · exact List.Perm.refl _
    · exact (List.Perm.cons y ih).trans (List.Perm.swap x y ys)

theorem sortServers_perm (l : List (String × ServerEntry)) :
    List.Perm (sortServers l) l := by
  induction l with
  | nil => exact List.Perm.refl _
  | cons x xs ih =>
    rw [sortServers]
    exact (insEntry_perm x (sortServers xs)).trans (List.Perm.cons x ih)

theorem mem_sortServers {x : String × ServerEntry} {l : List (String × ServerEntry)} :
    x ∈ sortServers l ↔ x ∈ l := (sortServers_perm l).mem_iff

theorem containsKey_sortServers {l : List (String × ServerEntry)} {k : String} :
    containsKey (sortServers l) k = containsKey l k := by
  cases h : containsKey l k
  · rw [containsKey_eq_false] at h ⊢
    intro v hv
    exact h v (mem_sortServers.mp hv)
  · rw [containsKey_eq_true] at h ⊢
    obtain ⟨v, hv⟩ := h
    exact ⟨v, mem_sortServers.mpr hv⟩

theorem nodupKeys_sortServers {l : List (String × ServerEntry)} (h : NodupKeys l) :
    NodupKeys (sortServers l) :=
  (List.Perm.nodup_iff (List.Perm.map Prod.fst (sortServers_perm l))).mpr h

theorem insEntry_sorted {x : String × ServerEntry} {l : List (String × ServerEntry)}
    (h : SortedDesc l) : SortedDesc (insEntry x l) := by
  induction l with
  | nil => simp [insEntry, SortedDesc]
  | cons y ys ih =>
    rcases List.pairwise_cons.mp h with ⟨hy, hys⟩
    rw [insEntry]
    split
    · next hxy =>
      refine List.pairwise_cons.mpr ⟨?_, h⟩
      intro z hz
      rcases List.mem_cons.mp hz with rfl | hz
      · exact hxy
      · exact keyGe_trans hxy (hy z hz)
    · next hxy =>
      have hyx : keyGe y.2 x.2 = true := by
        rcases keyGe_total x.2 y.2 with h' | h'
        · exact absurd h' hxy
        · exact h'
      refine List.pairwise_cons.mpr ⟨?_, ih hys⟩
      intro z hz
      rcases List.mem_cons.mp ((insEntry_perm x ys).mem_iff.mp hz) with rfl | hz
      · exact hyx
      · exact hy z hz

theorem sortServers_sorted (l : List (String × ServerEntry)) :
    SortedDesc (sortServers l) := by
  induction l with
  | nil => exact List.Pairwise.nil
  | cons x xs ih => exact insEntry_sorted ih

theorem find?_sorted_max {l : List (String × ServerEntry)}
    {pb : String × ServerEntry → Bool} {x : String × ServerEntry}
    (hs : SortedDesc l) (hf : l.find? pb = some x) :
    ∀ y ∈ l, pb y = true → keyGe x.2 y.2 = true := by
  induction l with
  | nil => simp at hf
  | cons z zs ih =>
    rcases List.pairwise_cons.mp hs with ⟨hz, hzs⟩
    intro y hy hpy
    by_cases hpz : pb z = true
    · rw [List.find?_cons_of_pos _ hpz] at hf
      obtain rfl : z = x := by simpa using hf
      rcases List.mem_cons.mp hy with rfl | hy
      · exact keyGe_refl _
      · exact hz y hy
    · rw [List.find?_cons_of_neg _ hpz] at hf
      rcases List.mem_cons.mp hy with rfl | hy
      · exact absurd hpy hpz
      · exact ih hzs hf y hy hpy

theorem find?_append_of_all_false {α : Type} {l₁ l₂ : List α} {pb : α → Bool}
    (h : ∀ x ∈ l₁, pb x = false) : (l₁ ++ l₂).find? pb = l₂.find? pb := by
  induction l₁ with
  | nil => rfl
  | cons z zs ih =>
    rw [List.cons_append,
      List.find?_cons_of_neg _ (by simp [h z (List.mem_cons_self z zs)])]
    exact ih (fun x hx => h x (List.mem_cons_of_mem z hx))

theorem eraseKey_cons_of_eq {α : Type} {x : String × α} {k : String} {l : List (String × α)}
    (h : x.1 = k) : eraseKey (x :: l) k = l :=
  List.eraseP_cons_of_pos (by simp [h])

theorem eraseKey_cons_of_ne {α : Type} {x : String × α} {k : String} {l : List (String × α)}
    (h : x.1 ≠ k) : eraseKey (x :: l) k = x :: eraseKey l k :=
  List.eraseP_cons_of_neg (by simp [h])

theorem insEntry_eq_cons {x : String × ServerEntry} {l : List (String × ServerEntry)}
    (h : ∀ z ∈ l, keyGe x.2 z.2 = true) : insEntry x l = x :: l := by
  cases l with
  | nil => rfl
  | cons y ys => rw [insEntry, if_pos (h y (List.mem_cons_self y ys))]

theorem eraseKey_insEntry_self {x : String × ServerEntry}
    {l : List (String × ServerEntry)} (hnk : containsKey l x.1 = false) :
    eraseKey (insEntry x l) x.1 = l := by
  induction l with
  | nil => exact eraseKey_cons_of_eq rfl
  | cons y ys ih =>
    obtain ⟨ky, vy⟩ := y
    rw [containsKey_cons, Bool.or_eq_false_iff] at hnk
    obtain ⟨h1, h2⟩ := hnk
    have hky : ky ≠ x.1 := by simpa using h1
    rw [insEntry]
    split
    · rw [eraseKey_cons_of_eq rfl]
    · rw [eraseKey_cons_of_ne hky, ih h2]

theorem insEntry_eraseKey {x : String × ServerEntry} {k : String}
    {l : List (String × ServerEntry)} (hx : x.1 ≠ k) (hs : SortedDesc l) :
    insEntry x (eraseKey l k) = eraseKey (insEntry x l) k := by
  induction l with
  | nil =>
    show insEntry x (eraseKey [] k) = eraseKey [x] k
    rw [eraseKey_cons_of_ne hx]
    rfl
  | cons y ys ih =>
    rcases List.pairwise_cons.mp hs with ⟨hy, hys⟩
    rw [insEntry]
    split
    · next hge =>
      rw [eraseKey_cons_of_ne hx]
      by_cases hyk : y.1 = k
      · simp only [eraseKey_cons_of_eq hyk]
        exact insEntry_eq_cons (fun z hz => keyGe_trans hge (hy z hz))
      · simp only [eraseKey_cons_of_ne hyk]
        rw [insEntry, if_pos hge]
    · next hge =>
      by_cases hyk : y.1 = k
      · simp only [eraseKey_cons_of_eq hyk]
      · simp only [eraseKey_cons_of_ne hyk]
        rw [insEntry, if_neg hge, ih hys]

theorem sortServers_eraseKey {l : List (String × ServerEntry)} {k : String}
    (hnd : NodupKeys l) :
    sortServers (eraseKey l k) = eraseKey (sortServers l) k := by
  induction l with
  | nil => rfl
  | cons y ys ih =>
    obtain ⟨ky, vy⟩ := y
    rcases nodupKeys_cons.mp hnd with ⟨hk, hnd'⟩
    by_cases hek : ky = k
    · subst hek
      rw [eraseKey_cons_of_eq rfl, sortServers, eraseKey_insEntry_self]
      show containsKey (sortServers ys) ky = false
      rw [containsKey_sortServers]
      exact hk
    · rw [eraseKey_cons_of_ne hek, sortServers, sortServers, ih hnd',
        insEntry_eraseKey hek (sortServers_sorted ys)]

/-! ### Selection lemmas -/

theorem containsKey_eq_false_of_sublist {α : Type} {l₁ l₂ : List (String × α)} {k : String}
    (hs : l₁.Sublist l₂) (h : containsKey l₂ k = false) : containsKey l₁ k = false := by
  rw [containsKey_eq_false] at h ⊢
  intro v hv
  exact h v (hs.subset hv)

theorem containsKey_setKey_self {α : Type} (l : List (String × α)) (k : String) (v : α) :
    containsKey (setKey l k v) k = true := by
  rw [← mem_keys_iff, keys_setKey]
  split
  · next h => rw [mem_keys_iff]; exact h
  · simp

theorem get_server_none {p : ServerPool} {now : Int}
    (h : selectServer (cleanup p now) = none) :
    get_server p now = (none, cleanup p now) := by
  simp [get_server, h]

theorem get_server_some {p : ServerPool} {now : Int} {job_id : String} {e : ServerEntry}
    (h : selectServer (cleanup p now) = some (job_id, e)) :
    get_server p now =
      (some { job_id := job_id, players := e.players, priority := e.priority,
              age := now - e.addedAt,
              pool_size := (eraseKey (cleanup p now).available job_id).length },
       { cleanup p now with
           available := eraseKey (cleanup p now).available job_id,
           assigned := setKey (cleanup p now).assigned job_id now,
           stats := { (cleanup p now).stats with
                        total_given := (cleanup p now).stats.total_given + 1 } }) := by
  simp [get_server, h]

theorem selectServer_mem {p : ServerPool} {kv : String × ServerEntry}
    (h : selectServer p = some kv) : kv ∈ p.available :=
  mem_sortServers.mp (List.mem_of_find?_eq_some h)

theorem selectServer_not_dead {p : ServerPool} {kv : String × ServerEntry}
    (h : selectServer p = some kv) : containsKey p.dead kv.1 = false := by
  have := List.find?_some h
  simpa using this

theorem get_server_result_in_available {p : ServerPool} {now : Int} {r : GivenServer}
    (h : (get_server p now).1 = some r) :
    containsKey (cleanup p now).available r.job_id = true := by
  rcases hsel : selectServer (cleanup p now) with _ | ⟨job_id, e⟩
  · rw [get_server_none hsel] at h
    cases h
  · rw [get_server_some hsel] at h
    have hr := Option.some_inj.mp h
    have hjid : r.job_id = job_id := by rw [← hr]
    rw [hjid]
    exact containsKey_eq_true.mpr ⟨e, selectServer_mem hsel⟩

theorem isClean_take {p : ServerPool} {now : Int} {job_id : String}
    (h : IsClean now p) :
    IsClean now
      { p with available := eraseKey p.available job_id,
               assigned := setKey p.assigned job_id now,
               stats := { p.stats with total_given := p.stats.total_given + 1 } } := by
  obtain ⟨hd, ha, hv⟩ := h
  refine ⟨hd, ?_, ?_⟩
  · intro kv hm
    rcases mem_setKey hm with hm | rfl
    · exact ha kv hm
    · simp [GIVEN_TTL]
  · intro kv hm
    exact hv kv ((eraseKey_sublist _ _).subset hm)

/-! ### Claim C9: static-endpoint cooldown arithmetic -/

theorem report_error_static_def (st : IPStatus) (now : Int) (irl : Bool) :
    report_error_static st now irl =
      if irl || decide (2 ≤ st.consecutive_errors + 1) then
        { st with errors := st.errors + 1,
                  last_error := now,
                  consecutive_errors := st.consecutive_errors + 1,
                  cooldown_until :=
                    now + min (30 + ((st.consecutive_errors + 1 : Nat) : Int) * 15) 120 }
      else
        { st with errors := st.errors + 1,
                  last_error := now,
                  consecutive_errors := st.consecutive_errors + 1 } := rfl

theorem report_success_static_def (st : IPStatus) :
    report_success_static st =
      if 0 < st.cooldown_until then
        { st with success := st.success + 1,
                  consecutive_errors := 0,
                  cooldown_until := max 0 (st.cooldown_until - 10) }
      else { st with success := st.success + 1, consecutive_errors := 0 } := rfl

/-- C9: each reported failure on a static endpoint increments its
consecutive-failure count and, on a rate-limit signal or once the count
has reached the threshold of 2, sets the cooldown deadline to `now` plus
30 s base plus 15 s per consecutive failure, capped at 120 s; each
reported success resets the consecutive-failure count and moves the
outstanding cooldown down by exactly 10 s, clamped at 0, rather than
clearing it instantly. -/
theorem c9_cooldown_escalation (st : IPStatus) (now : Int) (irl : Bool) :
    (report_error_static st now irl).consecutive_errors = st.consecutive_errors + 1 ∧
    ((irl = true ∨ 2 ≤ st.consecutive_errors + 1) →
      (report_error_static st now irl).cooldown_until =
        now + min (30 + ((st.consecutive_errors + 1 : Nat) : Int) * 15) 120) ∧
    (report_success_static st).consecutive_errors = 0 ∧
    (0 ≤ now → now ≤ st.cooldown_until →
      max 0 ((report_success_static st).cooldown_until - now) =
        max 0 (st.cooldown_until - now - 10)) := by
  refine ⟨?_, ?_, ?_, ?_⟩
  · rw [report_error_static_def]
    split <;> rfl
  · intro h
    have hc : (irl || decide (2 ≤ st.consecutive_errors + 1)) = true := by
      rcases h with h | h
      · simp [h]
      · simp [h]
    rw [report_error_static_def, if_pos hc]
  · rw [report_success_static_def]
    split <;> rfl
  · intro h0 hle
    rw [report_success_static_def]
    split <;> simp <;> omega

/-- Witness for the C9 theorem at a concrete endpoint state (one prior
rate-limited failure at time 7 gives cooldown deadline 52; a success with
43 s of outstanding cooldown leaves 33 s). -/
theorem c9_cooldown_escalation_witness :
    (report_error_static { cooldown_until := 50 } 7 true).cooldown_until = 52 ∧
    max 0 ((report_success_static ({ cooldown_until := 50 } : IPStatus)).cooldown_until - 7) =
      33 := by
  obtain ⟨h1, h2, h3, h4⟩ := c9_cooldown_escalation { cooldown_until := 50 } 7 true
  constructor
  · rw [h2 (Or.inl rfl)]
    decide
  · rw [h4 (by decide) (by decide)]
    decide

/-! ### Claim C1: lease expiry recycles the slot, not the record -/

/-- C1 (counterexample): `"A"` is admitted and then leased at time 0; at
time 301 (past the 300 s lease TTL, with no release or dead report) a
pool operation `get_server` runs. The claim says the record becomes
Available again and is eligible for the takeOne, but the pool ends with
an empty Available set, an empty assigned set, and the takeOne returns
the empty result. -/
theorem c1_counterexample :
    poolALeased.assigned = [("A", 0)] ∧
    poolALeased.available = [] ∧
    (get_server poolALeased 301).1 = none ∧
    (get_server poolALeased 301).2.available = [] ∧
    (get_server poolALeased 301).2.assigned = [] := by decide

theorem addLoop_single_fresh (deadL assignedL : List (String × Int)) (now : Int)
    (avail : List (String × ServerEntry)) {players : Int} {it : RawItem} {id : String}
    (hres : itemResolve it = some (id, players))
    (hd : containsKey deadL id = false) (ha : containsKey assignedL id = false)
    (hv : containsKey avail id = false) (hpl : 5 ≤ players) :
    addLoop deadL assignedL now [it] avail 0 0 0 =
      (avail ++ [(id, ⟨players, now, priorityOf players⟩)], 1, 0, 0) := by
  simp [addLoop, hres, hd, ha, hv, not_lt.mpr hpl, setKey_of_not_containsKey hv]

/-- C1 (amended): when a leased id's lease has expired at `now`
(`now - L > GIVEN_TTL`), `_cleanup` at `now` drops the lease and counts it
in `recycled`, but the Available set only shrinks (the record is not
restored there); instead the id becomes re-admissible: an `add_servers`
call at `now` with a fresh well-formed item under that id admits it
again. -/
theorem c1_lease_recycled (p : ServerPool) (now L players : Int) (id : String)
    (it : RawItem) (pk : Bool)
    (hmem : (id, L) ∈ p.assigned) (hexp : GIVEN_TTL < now - L)
    (hnd : NodupKeys p.assigned)
    (hres : itemResolve it = some (id, players)) (hpl : 5 ≤ players)
    (hav : containsKey p.available id = false)
    (hdead : containsKey p.dead id = false) :
    containsKey (cleanup p now).assigned id = false ∧
    (cleanup p now).available.Sublist p.available ∧
    p.stats.recycled < (cleanup p now).stats.recycled ∧
    (add_servers p [it] now pk).1.1 = 1 ∧
    containsKey (add_servers p [it] now pk).2.available id = true := by
  have hA : containsKey (cleanup p now).assigned id = false := by
    rw [containsKey_eq_false]
    intro v hv
    simp only [cleanup] at hv
    have hv' := List.mem_filter.mp hv
    have hvL : v = L := nodupKeys_mem_unique hnd hv'.1 hmem
    subst hvL
    have h2 := hv'.2
    simp [GIVEN_TTL] at h2
    simp [GIVEN_TTL] at hexp
    omega
  have hd2 : containsKey (cleanup p now).dead id = false :=
    containsKey_eq_false_of_sublist (cleanup_dead_sublist p now) hdead
  have hav2 : containsKey (cleanup p now).available id = false :=
    containsKey_eq_false_of_sublist (cleanup_available_sublist p now) hav
  have hloop := addLoop_single_fresh (cleanup p now).dead (cleanup p now).assigned now
    (cleanup p now).available hres hd2 hA hav2 hpl
  refine ⟨hA, cleanup_available_sublist p now, ?_, ?_, ?_⟩
  · have hmemf : (id, L) ∈ p.assigned.filter (fun kv => decide (now - kv.2 > GIVEN_TTL)) :=
      List.mem_filter.mpr ⟨hmem, by simp [GIVEN_TTL] at hexp ⊢; omega⟩
    have hpos : 0 < (p.assigned.filter (fun kv => decide (now - kv.2 > GIVEN_TTL))).length :=
      List.length_pos.mpr (List.ne_nil_of_mem hmemf)
    simp only [cleanup]
    omega
  · simp [add_servers, hloop]
  · simp only [add_servers, hloop]
    rw [containsKey_eq_true]
    exact ⟨⟨players, now, priorityOf players⟩, by simp⟩

/-- Witness for the amended C1 theorem on the concrete `"A"` scenario. -/
theorem c1_lease_recycled_witness :
    containsKey (cleanup poolALeased 301).assigned "A" = false ∧
    (add_servers poolALeased [mkItem "A" 6] 301 false).1.1 = 1 := by
  have h := c1_lease_recycled poolALeased 301 0 6 "A" (mkItem "A" 6) false
    (by decide) (by decide) (by decide) (by decide) (by decide) (by decide) (by decide)
  exact ⟨h.1, h.2.2.2.1⟩

/-! ### Claim C2: release clears the lease but does not restore the record -/

/-- C2 (counterexample): `"A"` is leased at time 0 and released right
away (well before any TTL). The claim says the record returns to the
Available set and a subsequent takeOne can return it again, but the
Available set stays empty and the takeOne at time 0 returns the empty
result. -/
theorem c2_counterexample :
    poolALeased.assigned = [("A", 0)] ∧
    poolAReleased.assigned = [] ∧
    poolAReleased.available = [] ∧
    poolAReleased.dead = [] ∧
    (get_server poolAReleased 0).1 = none := by decide

/-- C2 (amended): `release_server(id)` removes the id from the Leased set
without marking it Dead (the dead set is untouched) and changes nothing
else, but it does not return the record to the Available set (which is
untouched too, so the record stays absent from it); a subsequent takeOne
cannot return the id unless it is re-added. -/
theorem c2_release_clears_lease (p : ServerPool) (id : String) (now : Int)
    (hnd : NodupKeys p.assigned) :
    containsKey (release_server p id).assigned id = false ∧
    (release_server p id).available = p.available ∧
    (release_server p id).dead = p.dead ∧
    (release_server p id).stats = p.stats ∧
    (∀ kv ∈ (release_server p id).assigned, kv ∈ p.assigned) ∧
    (containsKey p.available id = false →
      ∀ r, (get_server (release_server p id) now).1 = some r → r.job_id ≠ id) := by
  refine ⟨containsKey_eraseKey_self hnd, rfl, rfl, rfl, ?_, ?_⟩
  · intro kv hm
    exact (eraseKey_sublist _ _).subset hm
  · intro hav r hr heq
    have hmem := get_server_result_in_available hr
    rw [heq] at hmem
    have h2 : containsKey (release_server p id).available id = false := hav
    have h3 := containsKey_eq_false_of_sublist
      (cleanup_available_sublist (release_server p id) now) h2
    rw [hmem] at h3
    cases h3

/-- Witness for the amended C2 theorem on the concrete `"A"` scenario. -/
theorem c2_release_clears_lease_witness :
    containsKey (release_server poolALeased "A").assigned "A" = false ∧
    (release_server poolALeased "A").dead = poolALeased.dead := by
  have h := c2_release_clears_lease poolALeased "A" 0 (by decide)
  exact ⟨h.1, h.2.2.1⟩

/-! ### Claim C8: takeOne on an empty pool -/

/-- C8 (counterexample): `poolALeased` has an empty Available set, and
`get_server` at time 301 returns the empty result; but contrary to the
no-side-effect half of the claim, the call mutates the pool: the expired
lease on `"A"` is dropped from the assigned set and the `recycled`
counter increments from 0 to 1. -/
theorem c8_counterexample :
    poolALeased.available = [] ∧
    (get_server poolALeased 301).1 = none ∧
    poolALeased.assigned = [("A", 0)] ∧
    (get_server poolALeased 301).2.assigned = [] ∧
    poolALeased.stats.recycled = 0 ∧
    (get_server poolALeased 301).2.stats.recycled = 1 := by decide

/-- C8 (amended): on an empty Available set `get_server` returns the
explicit empty result (`None`, not an exception), grants no lease of its
own and leaves `total_given` untouched; the only state change is the
opportunistic `_cleanup`, which may drop expired dead entries and expired
leases (counting them in `recycled`) and only ever shrinks the three
sets. -/
theorem c8_empty_pool (p : ServerPool) (now : Int) (h : p.available = []) :
    get_server p now = (none, cleanup p now) ∧
    (cleanup p now).stats.total_given = p.stats.total_given ∧
    (cleanup p now).available = [] ∧
    (∀ kv ∈ (cleanup p now).assigned, kv ∈ p.assigned) ∧
    (∀ kv ∈ (cleanup p now).dead, kv ∈ p.dead) := by
  have hav : (cleanup p now).available = [] := by simp [cleanup, h]
  refine ⟨?_, by simp [cleanup], hav, ?_, ?_⟩
  · apply get_server_none
    simp [selectServer, hav, sortServers]
  · intro kv hm
    exact (cleanup_assigned_sublist p now).subset hm
  · intro kv hm
    exact (cleanup_dead_sublist p now).subset hm

/-- Witness for the amended C8 theorem on the concrete empty-pool state. -/
theorem c8_empty_pool_witness :
    get_server poolALeased 301 = (none, cleanup poolALeased 301) :=
  (c8_empty_pool poolALeased 301 (by decide)).1

/-! ### Claim C3: priority ordering and tie-break -/

/-- C3 (counterexample): with metrics 2, 5, 6, 8 added at equal times,
four successive takeOne calls return the metric-6, metric-5 and metric-8
records and then the empty result — the metric-2 record was rejected by
the `players < 5` admission filter and is never returned, contradicting
the claimed fourth result. Moreover with two records of equal priority
(metric 8, priority band 10) discovered at times 0 and 5, takeOne returns
the record discovered at time 0: ties go to the EARLIEST-discovered
record, not the most-recently-discovered one claimed. -/
theorem c3_counterexample :
    (add_servers initPool bandItems 0 false).1 = (3, 0, 0, 4) ∧
    (takeRepeat 4 bandPool 0).1.map (fun g => g.players) = [6, 5, 8] ∧
    tiePool.available = [("older", ⟨8, 0, 10⟩), ("newer", ⟨8, 5, 10⟩)] ∧
    (get_server tiePool 5).1.map (fun g => g.job_id) = some "older" := by decide

/-- C3 (amended): `get_server` returns an Available record whose
`(priority, -added_time)` key is maximal among the non-dead Available
records — highest priority first, with priority ties broken towards the
earliest-discovered record; in the concrete scenario with metrics
2, 5, 6, 8 at equal times, the metric-2 item is rejected at admission and
successive takeOne calls return metric 6, then 5, then 8, then empty. -/
theorem c3_priority_order (p : ServerPool) (now : Int) (r : GivenServer)
    (hr : (get_server p now).1 = some r) :
    (∃ e : ServerEntry,
      (r.job_id, e) ∈ (cleanup p now).available ∧
      e.priority = r.priority ∧ e.addedAt = now - r.age ∧
      containsKey (cleanup p now).dead r.job_id = false ∧
      ∀ kv ∈ (cleanup p now).available,
        containsKey (cleanup p now).dead kv.1 = false → keyGe e kv.2 = true) ∧
    (takeRepeat 4 bandPool 0).1.map (fun g => g.players) = [6, 5, 8] := by
  refine ⟨?_, by decide⟩
  rcases hsel : selectServer (cleanup p now) with _ | ⟨job_id, e⟩
  · rw [get_server_none hsel] at hr
    cases hr
  · rw [get_server_some hsel] at hr
    have hrec := Option.some_inj.mp hr
    have hjid : r.job_id = job_id := by rw [← hrec]
    have hpr : e.priority = r.priority := by rw [← hrec]
    have hage : e.addedAt = now - r.age := by
      have : r.age = now - e.addedAt := by rw [← hrec]
      omega
    refine ⟨e, ?_, hpr, hage, ?_, ?_⟩
    · rw [hjid]
      exact selectServer_mem hsel
    · rw [hjid]
      exact selectServer_not_dead hsel
    · intro kv hkv hdead
      exact find?_sorted_max (sortServers_sorted _) hsel kv
        (mem_sortServers.mpr hkv) (by simp [hdead])

/-- Witness for the amended C3 theorem: the first takeOne on the banding
scenario returns the metric-6 record. -/
theorem c3_priority_order_witness :
    (takeRepeat 4 bandPool 0).1.map (fun g => g.players) = [6, 5, 8] := by
  have h := c3_priority_order bandPool 0
    { job_id := "m6", players := 6, priority := 100, age := 0, pool_size := 2 }
    (by decide)
  exact h.2

/-! ### Claim C4: TTL expiry is enforced at read time -/

theorem scanBatch_result_keys {now : Int} {count : Nat} :
    ∀ (l : List (String × ServerEntry)) (p : ServerPool) (acc : List BatchServer)
      (r : BatchServer), r ∈ (scanBatch now count l p acc).1 →
      r ∈ acc ∨ ∃ e, (r.job_id, e) ∈ l := by
  intro l
  induction l with
  | nil =>
    intro p acc r hr
    exact Or.inl hr
  | cons kv rest ih =>
    intro p acc r hr
    obtain ⟨job_id, e⟩ := kv
    rw [scanBatch] at hr
    split at hr
    · exact Or.inl hr
    · split at hr
      · rcases ih _ _ _ hr with h | ⟨e', h⟩
        · exact Or.inl h
        · exact Or.inr ⟨e', List.mem_cons_of_mem _ h⟩
      · rcases ih _ _ _ hr with h | ⟨e', h⟩
        · rcases List.mem_append.mp h with h | h
          · exact Or.inl h
          · right
            have hrr : r = { job_id := job_id, players := e.players,
                             priority := e.priority, age := now - e.addedAt } := by
              simpa using h
            exact ⟨e, by rw [hrr]; exact List.mem_cons_self _ _⟩
        · exact Or.inr ⟨e', List.mem_cons_of_mem _ h⟩

/-- C4: a record whose stored discovery time is more than `SERVER_TTL`
seconds in the past at `now` is lazily deleted by the cleanup that every
read runs first, so it is never among the results of `get_server` or
`get_batch` at `now`. -/
theorem c4_ttl_expiry (p : ServerPool) (now : Int) (id : String) (e : ServerEntry)
    (n : Nat)
    (hmem : (id, e) ∈ p.available) (hnd : NodupKeys p.available)
    (hexp : SERVER_TTL < now - e.addedAt) :
    (∀ r : GivenServer, (get_server p now).1 = some r → r.job_id ≠ id) ∧
    (∀ r ∈ (get_batch p n now).1, r.job_id ≠ id) := by
  have hgone : containsKey (cleanup p now).available id = false := by
    rw [containsKey_eq_false]
    intro v hv
    simp only [cleanup] at hv
    have hv' := List.mem_filter.mp hv
    have hve : v = e := nodupKeys_mem_unique hnd hv'.1 hmem
    subst hve
    have h2 := hv'.2
    simp [SERVER_TTL] at h2
    simp [SERVER_TTL] at hexp
    omega
  constructor
  · intro r hr heq
    have hin := get_server_result_in_available hr
    rw [heq, hgone] at hin
    cases hin
  · intro r hr heq
    by_cases hemp : (cleanup p now).available.isEmpty
    · rw [show get_batch p n now = ([], cleanup p now) by simp [get_batch, hemp]] at hr
      cases hr
    · rw [show get_batch p n now =
          scanBatch now n (sortServers (cleanup p now).available) (cleanup p now) [] by
        simp [get_batch, hemp]] at hr
      rcases scanBatch_result_keys _ _ _ _ hr with h | ⟨e', h⟩
      · cases h
      · have : containsKey (cleanup p now).available r.job_id = true :=
          containsKey_eq_true.mpr ⟨e', mem_sortServers.mp h⟩
        rw [heq, hgone] at this
        cases this

/-- Witness for the C4 theorem: in `mixPool` at time 301 the expired
record `"B"` is not the one returned. -/
theorem c4_ttl_expiry_witness :
    ({ job_id := "C", players := 6, priority := 100, age := 1, pool_size := 0 } :
      GivenServer).job_id ≠ "B" := by
  have h := c4_ttl_expiry mixPool 301 "B" ⟨6, 0, 100⟩ 5 (by decide) (by decide) (by decide)
  exact h.1 _ (by decide)

/-! ### Claims C5 and C6: admission-loop lemmas -/

theorem containsKey_append {α : Type} {l₁ l₂ : List (String × α)} {k : String} :
    containsKey (l₁ ++ l₂) k = (containsKey l₁ k || containsKey l₂ k) := by
  simp [containsKey, List.any_append]

theorem keys_map_entry (pairs : List (String × Int)) (now : Int) :
    (pairs.map
        (fun pr => (pr.1, (⟨pr.2, now, priorityOf pr.2⟩ : ServerEntry)))).map Prod.fst =
      pairs.map Prod.fst := by
  rw [List.map_map]
  rfl

theorem add_servers_fst (p : ServerPool) (servers : List RawItem) (now : Int) (pk : Bool) :
    (add_servers p servers now pk).1 =
      ((addLoop (cleanup p now).dead (cleanup p now).assigned now servers
          (cleanup p now).available 0 0 0).2.1,
       (addLoop (cleanup p now).dead (cleanup p now).assigned now servers
          (cleanup p now).available 0 0 0).2.2.1,
       (addLoop (cleanup p now).dead (cleanup p now).assigned now servers
          (cleanup p now).available 0 0 0).2.2.2,
       servers.length) := by
  simp [add_servers]

theorem add_servers_available (p : ServerPool) (servers : List RawItem) (now : Int)
    (pk : Bool) :
    (add_servers p servers now pk).2.available =
      (addLoop (cleanup p now).dead (cleanup p now).assigned now servers
        (cleanup p now).available 0 0 0).1 := by
  simp [add_servers]

theorem add_servers_assigned (p : ServerPool) (servers : List RawItem) (now : Int)
    (pk : Bool) :
    (add_servers p servers now pk).2.assigned = (cleanup p now).assigned := by
  simp [add_servers]

theorem add_servers_dead (p : ServerPool) (servers : List RawItem) (now : Int)
    (pk : Bool) :
    (add_servers p servers now pk).2.dead = (cleanup p now).dead := by
  simp [add_servers]

theorem addLoop_all_fresh (deadL assignedL : List (String × Int)) (now : Int)
    {items : List RawItem} {pairs : List (String × Int)}
    (hwf : List.Forall₂ (fun it pr => itemResolve it = some pr ∧ 5 ≤ pr.2) items pairs) :
    ∀ (avail : List (String × ServerEntry)) (added dups deadC : Nat),
      (pairs.map Prod.fst).Nodup →
      (∀ k ∈ pairs.map Prod.fst,
        containsKey deadL k = false ∧ containsKey assignedL k = false ∧
        containsKey avail k = false) →
      addLoop deadL assignedL now items avail added dups deadC =
        (avail ++ pairs.map (fun pr => (pr.1, ⟨pr.2, now, priorityOf pr.2⟩)),
         added + pairs.length, dups, deadC) := by
  induction hwf with
  | nil =>
    intro avail added dups deadC hnd hfresh
    simp [addLoop]
  | @cons it pr rest prest hpr hrest ih =>
    intro avail added dups deadC hnd hfresh
    obtain ⟨id, pl⟩ := pr
    obtain ⟨hres, hpl⟩ := hpr
    obtain ⟨hd, ha, hv⟩ := hfresh id (by simp)
    have hndtail : (prest.map Prod.fst).Nodup := (List.nodup_cons.mp (by simpa using hnd)).2
    have hidnotin : id ∉ prest.map Prod.fst := (List.nodup_cons.mp (by simpa using hnd)).1
    simp only [addLoop, hres, hd, ha, hv, Bool.false_eq_true, if_false,
      not_lt.mpr hpl, if_neg (not_lt.mpr hpl)]
    rw [setKey_of_not_containsKey hv,
      ih (avail ++ [(id, (⟨pl, now, priorityOf pl⟩ : ServerEntry))])
        (added + 1) dups deadC hndtail ?_]
    · simp only [List.map_cons, List.length_cons, Prod.mk.injEq, List.append_assoc,
        List.singleton_append, true_and, and_true]
      omega
    · intro k hk
      obtain ⟨h1, h2, h3⟩ := hfresh k (by simp [hk])
      refine ⟨h1, h2, ?_⟩
      rw [containsKey_append, h3]
      have hkne : id ≠ k := fun he => hidnotin (he ▸ hk)
      simp [containsKey, hkne]

theorem addLoop_all_dup (deadL assignedL : List (String × Int)) (now : Int)
    {items : List RawItem} {pairs : List (String × Int)}
    (hwf : List.Forall₂ (fun it pr => itemResolve it = some pr ∧ 5 ≤ pr.2) items pairs) :
    ∀ (avail : List (String × ServerEntry)) (added dups deadC : Nat),
      (∀ k ∈ pairs.map Prod.fst,
        containsKey deadL k = false ∧ containsKey assignedL k = false ∧
        containsKey avail k = true) →
      addLoop deadL assignedL now items avail added dups deadC =
        (avail, added, dups + pairs.length, deadC) := by
  induction hwf with
  | nil =>
    intro avail added dups deadC hdup
    simp [addLoop]
  | @cons it pr rest prest hpr hrest ih =>
    intro avail added dups deadC hdup
    obtain ⟨id, pl⟩ := pr
    obtain ⟨hres, hpl⟩ := hpr
    obtain ⟨hd, ha, hv⟩ := hdup id (by simp)
    simp only [addLoop, hres, hd, ha, hv, Bool.false_eq_true, if_false, if_true]
    rw [ih avail added (dups + 1) deadC (fun k hk => hdup k (by simp [hk]))]
    simp only [List.length_cons, Prod.mk.injEq, true_and, and_true]
    omega

theorem addLoop_single_dead (deadL assignedL : List (String × Int)) (now : Int)
    (avail : List (String × ServerEntry)) (a d dd : Nat) {players : Int}
    {it : RawItem} {id : String}
    (hres : itemResolve it = some (id, players))
    (hd : containsKey deadL id = true) :
    addLoop deadL assignedL now [it] avail a d dd = (avail, a, d, dd + 1) := by
  simp [addLoop, hres, hd]

theorem addLoop_dead_not_added {deadL assignedL : List (String × Int)} {now : Int}
    {id : String} :
    ∀ (items : List RawItem) (avail : List (String × ServerEntry)) (a d dd : Nat),
      containsKey deadL id = true → containsKey avail id = false →
      containsKey (addLoop deadL assignedL now items avail a d dd).1 id = false := by
  intro items
  induction items with
  | nil =>
    intro avail a d dd hd hv
    exact hv
  | cons it rest ih =>
    intro avail a d dd hd hv
    rcases hres : itemResolve it with _ | ⟨jid, pl⟩
    · simp only [addLoop, hres]
      exact ih _ _ _ _ hd hv
    · simp only [addLoop, hres]
      by_cases h1 : containsKey deadL jid = true
      · rw [if_pos h1]
        exact ih _ _ _ _ hd hv
      · rw [if_neg h1]
        have hne : jid ≠ id := fun he => h1 (he ▸ hd)
        by_cases h2 : containsKey assignedL jid = true
        · rw [if_pos h2]
          exact ih _ _ _ _ hd hv
        · rw [if_neg h2]
          by_cases h3 : containsKey avail jid = true
          · rw [if_pos h3]
            exact ih _ _ _ _ hd hv
          · rw [if_neg h3]
            by_cases h4 : pl < 5
            · rw [if_pos h4]
              exact ih _ _ _ _ hd hv
            · rw [if_neg h4]
              refine ih _ _ _ _ hd ?_
              rw [setKey_of_not_containsKey (by simpa using h3), containsKey_append, hv]
              simp [containsKey, hne]

/-- C5: adding N well-formed, admissible, pairwise-distinct fresh items
returns `added = N, duplicates = 0` (nothing dead-skipped), and repeating
the identical call at the same instant returns `added = 0, duplicates = N`
while leaving the stored Available records unchanged — re-discovery of a
live id is a no-op on the record's state. -/
theorem c5_dedup_idempotent (p : ServerPool) (now : Int) (pk pk2 : Bool)
    (items : List RawItem) (pairs : List (String × Int))
    (hwf : List.Forall₂ (fun it pr => itemResolve it = some pr ∧ 5 ≤ pr.2) items pairs)
    (hnd : (pairs.map Prod.fst).Nodup)
    (hfresh : ∀ k ∈ pairs.map Prod.fst,
      containsKey p.dead k = false ∧ containsKey p.assigned k = false ∧
      containsKey p.available k = false) :
    (add_servers p items now pk).1 = (items.length, 0, 0, items.length) ∧
    (add_servers (add_servers p items now pk).2 items now pk2).1 =
      (0, items.length, 0, items.length) ∧
    (add_servers (add_servers p items now pk).2 items now pk2).2.available =
      (add_servers p items now pk).2.available := by
  have hlen := hwf.length_eq
  have hfresh1 : ∀ k ∈ pairs.map Prod.fst,
      containsKey (cleanup p now).dead k = false ∧
      containsKey (cleanup p now).assigned k = false ∧
      containsKey (cleanup p now).available k = false := by
    intro k hk
    obtain ⟨h1, h2, h3⟩ := hfresh k hk
    exact ⟨containsKey_eq_false_of_sublist (cleanup_dead_sublist p now) h1,
      containsKey_eq_false_of_sublist (cleanup_assigned_sublist p now) h2,
      containsKey_eq_false_of_sublist (cleanup_available_sublist p now) h3⟩
  have hloop1 := addLoop_all_fresh (cleanup p now).dead (cleanup p now).assigned now hwf
    (cleanup p now).available 0 0 0 hnd hfresh1
  have hp1av : (add_servers p items now pk).2.available =
      (cleanup p now).available ++
        pairs.map (fun pr => (pr.1, ⟨pr.2, now, priorityOf pr.2⟩)) := by
    rw [add_servers_available, hloop1]
  have hp1as : (add_servers p items now pk).2.assigned = (cleanup p now).assigned :=
    add_servers_assigned p items now pk
  have hp1dead : (add_servers p items now pk).2.dead = (cleanup p now).dead :=
    add_servers_dead p items now pk
  have hclean : IsClean now (add_servers p items now pk).2 := by
    obtain ⟨hd, ha, hv⟩ := cleanup_isClean p now
    refine ⟨?_, ?_, ?_⟩
    · rw [hp1dead]
      exact hd
    · rw [hp1as]
      exact ha
    · rw [hp1av]
      intro kv hm
      rcases List.mem_append.mp hm with hm | hm
      · exact hv kv hm
      · obtain ⟨pr, hpr, rfl⟩ := List.mem_map.mp hm
        show now - now ≤ SERVER_TTL
        simp [SERVER_TTL]
  have hcl2 : cleanup (add_servers p items now pk).2 now = (add_servers p items now pk).2 :=
    cleanup_eq_self hclean
  have hdup : ∀ k ∈ pairs.map Prod.fst,
      containsKey (add_servers p items now pk).2.dead k = false ∧
      containsKey (add_servers p items now pk).2.assigned k = false ∧
      containsKey (add_servers p items now pk).2.available k = true := by
    intro k hk
    obtain ⟨h1, h2, h3⟩ := hfresh1 k hk
    refine ⟨by rw [hp1dead]; exact h1, by rw [hp1as]; exact h2, ?_⟩
    rw [hp1av, containsKey_append]
    have hmk : containsKey
        (pairs.map fun pr => (pr.1, (⟨pr.2, now, priorityOf pr.2⟩ : ServerEntry))) k =
        true := by
      rw [← mem_keys_iff, keys_map_entry]
      exact hk
    simp [hmk]
  have hloop2 := addLoop_all_dup (add_servers p items now pk).2.dead
    (add_servers p items now pk).2.assigned now hwf
    (add_servers p items now pk).2.available 0 0 0 hdup
  refine ⟨?_, ?_, ?_⟩
  · rw [add_servers_fst, hloop1]
    simp [hlen]
  · rw [add_servers_fst, hcl2, hloop2]
    simp [hlen]
  · rw [add_servers_available, hcl2, hloop2]

/-- Witness for the C5 theorem on two concrete items. -/
theorem c5_dedup_idempotent_witness :
    (add_servers initPool [mkItem "x" 5, mkItem "y" 6] 0 false).1 = (2, 0, 0, 2) ∧
    (add_servers (add_servers initPool [mkItem "x" 5, mkItem "y" 6] 0 false).2
      [mkItem "x" 5, mkItem "y" 6] 0 false).1 = (0, 2, 0, 2) := by
  have h := c5_dedup_idempotent initPool 0 false false
    [mkItem "x" 5, mkItem "y" 6] [("x", 5), ("y", 6)]
    (List.Forall₂.cons (by decide) (List.Forall₂.cons (by decide) List.Forall₂.nil))
    (by decide) (by decide)
  exact ⟨h.1, h.2.1⟩

/-- C6: after `report_dead(X)` at time `td`, an `add_servers` call at any
`now` within the 600 s dead-retention window counts an item carrying id X
as dead instead of admitting it — for the single-item list the call
returns `added = 0` with a dead-skip of 1, and under any item list X
stays out of the Available set; once the window has elapsed
(`now2 - td > 600`) the dead entry is dropped by cleanup and a
well-formed fresh item with id X is admitted again (`added = 1`). -/
theorem c6_dead_suppression (p : ServerPool) (td now now2 players : Int) (id : String)
    (it : RawItem) (pk : Bool) (items : List RawItem)
    (hdead : (id, td) ∈ p.dead) (hnd : NodupKeys p.dead)
    (hwin : now - td ≤ 600)
    (hres : itemResolve it = some (id, players)) (hpl : 5 ≤ players)
    (hwin2 : 600 < now2 - td)
    (hav : containsKey p.available id = false)
    (hass : containsKey p.assigned id = false) :
    (add_servers p [it] now pk).1.1 = 0 ∧
    (add_servers p [it] now pk).1.2.2.1 = 1 ∧
    containsKey (add_servers p items now pk).2.available id = false ∧
    (add_servers p [it] now2 pk).1.1 = 1 := by
  have hdclean : containsKey (cleanup p now).dead id = true := by
    rw [containsKey_eq_true]
    refine ⟨td, ?_⟩
    simp only [cleanup]
    exact List.mem_filter.mpr ⟨hdead, by simp; omega⟩
  have hloopdead := addLoop_single_dead (cleanup p now).dead (cleanup p now).assigned now
    (cleanup p now).available 0 0 0 hres hdclean
  have hav1 : containsKey (cleanup p now).available id = false :=
    containsKey_eq_false_of_sublist (cleanup_available_sublist p now) hav
  refine ⟨?_, ?_, ?_, ?_⟩
  · rw [add_servers_fst, hloopdead]
  · rw [add_servers_fst, hloopdead]
  · rw [add_servers_available]
    exact addLoop_dead_not_added items (cleanup p now).available 0 0 0 hdclean hav1
  · have hgone : containsKey (cleanup p now2).dead id = false := by
      rw [containsKey_eq_false]
      intro v hv
      simp only [cleanup] at hv
      have hv' := List.mem_filter.mp hv
      have hvtd : v = td := nodupKeys_mem_unique hnd hv'.1 hdead
      subst hvtd
      have h2 := hv'.2
      simp at h2
      omega
    have hass2 : containsKey (cleanup p now2).assigned id = false :=
      containsKey_eq_false_of_sublist (cleanup_assigned_sublist p now2) hass
    have hav2 : containsKey (cleanup p now2).available id = false :=
      containsKey_eq_false_of_sublist (cleanup_available_sublist p now2) hav
    have hloop := addLoop_single_fresh (cleanup p now2).dead (cleanup p now2).assigned now2
      (cleanup p now2).available hres hgone hass2 hav2 hpl
    rw [add_servers_fst, hloop]

/-- Witness for the C6 theorem: `"X"` dead-reported at time 0 is refused
at time 100 and admitted again at time 601. -/
theorem c6_dead_suppression_witness :
    (add_servers deadPool [mkItem "X" 6] 100 false).1.1 = 0 ∧
    (add_servers deadPool [mkItem "X" 6] 601 false).1.1 = 1 := by
  have h := c6_dead_suppression deadPool 0 100 601 6 "X" (mkItem "X" 6) false
    [mkItem "X" 6] (by decide) (by decide) (by decide) (by decide) (by decide)
    (by decide) (by decide) (by decide)
  exact ⟨h.1, h.2.2.2⟩

/-! ### Claim C7: `get_batch` refines repeated `get_server` -/

theorem eraseKey_append_not_contains {α : Type} {l₁ l₂ : List (String × α)} {k : String}
    (h : containsKey l₁ k = false) : eraseKey (l₁ ++ l₂) k = l₁ ++ eraseKey l₂ k := by
  induction l₁ with
  | nil => rfl
  | cons x xs ih =>
    obtain ⟨kx, vx⟩ := x
    rw [containsKey_cons, Bool.or_eq_false_iff] at h
    rw [List.cons_append, eraseKey_cons_of_ne (by simpa using h.1), ih h.2,
      List.cons_append]

theorem get_server_cleanup (p : ServerPool) (now : Int) :
    get_server (cleanup p now) now = get_server p now := by
  simp [get_server, cleanup_eq_self (cleanup_isClean p now)]

theorem takeRepeat_cleanup (n : Nat) (p : ServerPool) (now : Int) :
    takeRepeat (n + 1) (cleanup p now) now = takeRepeat (n + 1) p now := by
  simp only [takeRepeat, get_server_cleanup]

theorem scanBatch_eq_takeRepeat (now : Int) :
    ∀ (l : List (String × ServerEntry)) (p : ServerPool)
      (pre : List (String × ServerEntry)) (count : Nat) (acc : List BatchServer),
      IsClean now p → NodupKeys p.available →
      sortServers p.available = pre ++ l →
      (∀ kv ∈ pre, containsKey p.dead kv.1 = true) →
      acc.length ≤ count →
      (scanBatch now count l p acc).1.map (fun b => b.job_id) =
        acc.map (fun b => b.job_id) ++
          (takeRepeat (count - acc.length) p now).1.map (fun g => g.job_id) ∧
      (scanBatch now count l p acc).2 = (takeRepeat (count - acc.length) p now).2 := by
  intro l
  induction l with
  | nil =>
    intro p pre count acc hclean hnd hsort hpre hlen
    have hcl : cleanup p now = p := cleanup_eq_self hclean
    have hsel : selectServer p = none := by
      unfold selectServer
      rw [hsort, List.append_nil, List.find?_eq_none]
      intro x hx
      simp [hpre x hx]
    have hgs : get_server p now = (none, p) := by
      have h := get_server_none (by rw [hcl]; exact hsel)
      rw [hcl] at h
      exact h
    have hTR : ∀ m : Nat, takeRepeat m p now = ([], p) := by
      intro m
      cases m with
      | zero => rfl
      | succ k => simp [takeRepeat, hgs]
    rw [hTR (count - acc.length)]
    simp [scanBatch]
  | cons kv rest ih =>
    intro p pre count acc hclean hnd hsort hpre hlen
    obtain ⟨jid, e⟩ := kv
    simp only [scanBatch]
    by_cases hcnt : count ≤ acc.length
    · rw [if_pos hcnt]
      have hz : count - acc.length = 0 := by omega
      rw [hz]
      simp [takeRepeat]
    · rw [if_neg hcnt]
      by_cases hdead : containsKey p.dead jid = true
      · rw [if_pos hdead]
        refine ih p (pre ++ [(jid, e)]) count acc hclean hnd (by rw [hsort]; simp) ?_ hlen
        intro kv hkv
        rcases List.mem_append.mp hkv with h | h
        · exact hpre kv h
        · obtain rfl : kv = (jid, e) := by simpa using h
          exact hdead
      · rw [if_neg hdead]
        have hcl : cleanup p now = p := cleanup_eq_self hclean
        have hsel : selectServer p = some (jid, e) := by
          unfold selectServer
          rw [hsort, find?_append_of_all_false (fun x hx => by simp [hpre x hx]),
            List.find?_cons_of_pos _ (by simp [hdead])]
        have hgs := get_server_some (by rw [hcl]; exact hsel :
          selectServer (cleanup p now) = some (jid, e))
        rw [hcl] at hgs
        have hprejid : containsKey pre jid = false := by
          rw [containsKey_eq_false]
          intro v hv
          exact hdead (by simpa using hpre (jid, v) hv)
        have hsort1 : sortServers
            (eraseKey p.available jid) = pre ++ rest := by
          rw [sortServers_eraseKey hnd, hsort, eraseKey_append_not_contains hprejid,
            eraseKey_cons_of_eq rfl]
        obtain ⟨k, hk⟩ : ∃ k, count - acc.length = k + 1 :=
          ⟨count - acc.length - 1, by omega⟩
        rw [hk]
        simp only [takeRepeat, hgs]
        have hrec := ih
          { p with available := eraseKey p.available jid,
                   assigned := setKey p.assigned jid now,
                   stats := { p.stats with total_given := p.stats.total_given + 1 } }
          pre count
          (acc ++ [{ job_id := jid, players := e.players, priority := e.priority,
                     age := now - e.addedAt }])
          (isClean_take hclean)
          (NodupKeys_of_sublist (eraseKey_sublist _ _) hnd)
          hsort1 hpre (by simp; omega)
        have hk2 : count - (acc.length + 1) = k := by omega
        rw [List.length_append] at hrec
        simp only [List.length_singleton, hk2] at hrec
        refine ⟨?_, ?_⟩
        · rw [hrec.1]
          simp
        · rw [hrec.2]

/-- C7: `get_batch n` returns exactly the same sequence of record ids, in
the same order, as `n` repeated `get_server` calls at the same instant
(stopping early once nothing is selectable); a partial or empty result is
an ordinary return value, not an error. -/
theorem c7_batch_refines_repeated_takeone (p : ServerPool) (n : Nat) (now : Int)
    (hnd : NodupKeys p.available) :
    (get_batch p n now).1.map (fun b => b.job_id) =
      (takeRepeat n p now).1.map (fun g => g.job_id) := by
  have hndq : NodupKeys (cleanup p now).available :=
    NodupKeys_of_sublist (cleanup_available_sublist p now) hnd
  cases n with
  | zero =>
    by_cases hemp : (cleanup p now).available.isEmpty
    · simp [get_batch, hemp, takeRepeat]
    · rw [show get_batch p 0 now =
          scanBatch now 0 (sortServers (cleanup p now).available) (cleanup p now) [] from
        by simp [get_batch, hemp]]
      rcases hs : sortServers (cleanup p now).available with _ | ⟨⟨jid, e⟩, rest⟩
      · simp [scanBatch, takeRepeat]
      · simp [scanBatch, takeRepeat]
  | succ m =>
    rw [← takeRepeat_cleanup m p now]
    by_cases hemp : (cleanup p now).available.isEmpty
    · have hav : (cleanup p now).available = [] := by simpa using hemp
      have hq : cleanup (cleanup p now) now = cleanup p now :=
        cleanup_eq_self (cleanup_isClean p now)
      have hsel : selectServer (cleanup p now) = none := by
        simp [selectServer, hav, sortServers]
      have hgs : get_server (cleanup p now) now = (none, cleanup p now) := by
        have h := get_server_none (by rw [hq]; exact hsel)
        rw [hq] at h
        exact h
      simp [get_batch, hemp, takeRepeat, hgs]
    · rw [show get_batch p (m + 1) now =
          scanBatch now (m + 1) (sortServers (cleanup p now).available)
            (cleanup p now) [] from by simp [get_batch, hemp]]
      have h := scanBatch_eq_takeRepeat now (sortServers (cleanup p now).available)
        (cleanup p now) [] (m + 1) [] (cleanup_isClean p now) hndq rfl
        (by intro kv hkv; cases hkv) (by simp)
      simpa using h.1

/-- Witness for the C7 theorem: batch of 3 against three repeated
takeOnes on the five-record scenario pool. -/
theorem c7_batch_refines_repeated_takeone_witness :
    (get_batch batchPool 3 0).1.map (fun b => b.job_id) =
      (takeRepeat 3 batchPool 0).1.map (fun g => g.job_id) :=
  c7_batch_refines_repeated_takeone batchPool 3 0 (by decide)

/-! ### Claim C10: the three sets stay mutually exclusive -/

theorem ne_of_mem_eraseKey {α : Type} {l : List (String × α)} {k : String}
    {kv : String × α} (hnd : NodupKeys l) (hkv : kv ∈ eraseKey l k) : kv.1 ≠ k := by
  intro he
  subst he
  have hself := containsKey_eraseKey_self (l := l) (k := kv.1) hnd
  exact absurd (containsKey_eq_true.mpr ⟨kv.2, hkv⟩) (by simp [hself])

theorem containsKey_setKey_of_ne {α : Type} {l : List (String × α)} {k k' : String}
    {v : α} (hne : k' ≠ k) : containsKey (setKey l k v) k' = containsKey l k' := by
  cases h : containsKey l k'
  · have hnot : k' ∉ l.map Prod.fst := by
      rw [mem_keys_iff, h]
      simp
    have hnot2 : k' ∉ (setKey l k v).map Prod.fst := by
      rw [keys_setKey]
      split
      · exact hnot
      · simp [hnot, hne]
    rw [← Bool.not_eq_true, ← mem_keys_iff]
    exact hnot2
  · have hmem : k' ∈ l.map Prod.fst := mem_keys_iff.mpr h
    have hmem2 : k' ∈ (setKey l k v).map Prod.fst := by
      rw [keys_setKey]
      split
      · exact hmem
      · simp [hmem]
    rw [← mem_keys_iff]
    exact hmem2

theorem poolInv_cleanup {p : ServerPool} (now : Int) (h : PoolInv p) :
    PoolInv (cleanup p now) := by
  obtain ⟨h1, h2, h3, h4, h5⟩ := h
  refine ⟨NodupKeys_of_sublist (cleanup_available_sublist p now) h1,
    NodupKeys_of_sublist (cleanup_assigned_sublist p now) h2,
    NodupKeys_of_sublist (cleanup_dead_sublist p now) h3, ?_, ?_⟩
  · intro kv hm
    obtain ⟨ha, hd⟩ := h4 kv ((cleanup_available_sublist p now).subset hm)
    exact ⟨containsKey_eq_false_of_sublist (cleanup_assigned_sublist p now) ha,
      containsKey_eq_false_of_sublist (cleanup_dead_sublist p now) hd⟩
  · intro kv hm
    exact containsKey_eq_false_of_sublist (cleanup_dead_sublist p now)
      (h5 kv ((cleanup_assigned_sublist p now).subset hm))

theorem addLoop_inv (deadL assignedL : List (String × Int)) (now : Int) :
    ∀ (items : List RawItem) (avail : List (String × ServerEntry)) (a d dd : Nat),
      NodupKeys avail →
      (∀ kv ∈ avail,
        containsKey assignedL kv.1 = false ∧ containsKey deadL kv.1 = false) →
      NodupKeys (addLoop deadL assignedL now items avail a d dd).1 ∧
      (∀ kv ∈ (addLoop deadL assignedL now items avail a d dd).1,
        containsKey assignedL kv.1 = false ∧ containsKey deadL kv.1 = false) := by
  intro items
  induction items with
  | nil =>
    intro avail a d dd h1 h2
    exact ⟨h1, h2⟩
  | cons it rest ih =>
    intro avail a d dd h1 h2
    rcases hres : itemResolve it with _ | ⟨jid, pl⟩
    · simp only [addLoop, hres]
      exact ih _ _ _ _ h1 h2
    · simp only [addLoop, hres]
      by_cases c1 : containsKey deadL jid = true
      · rw [if_pos c1]
        exact ih _ _ _ _ h1 h2
      · rw [if_neg c1]
        by_cases c2 : containsKey assignedL jid = true
        · rw [if_pos c2]
          exact ih _ _ _ _ h1 h2
        · rw [if_neg c2]
          by_cases c3 : containsKey avail jid = true
          · rw [if_pos c3]
            exact ih _ _ _ _ h1 h2
          · rw [if_neg c3]
            by_cases c4 : pl < 5
            · rw [if_pos c4]
              exact ih _ _ _ _ h1 h2
            · rw [if_neg c4]
              refine ih _ _ _ _ (nodupKeys_setKey h1) ?_
              intro kv hkv
              rcases mem_setKey hkv with hkv | rfl
              · exact h2 kv hkv
              · exact ⟨by simpa using c2, by simpa using c1⟩

theorem poolInv_add_servers {p : ServerPool} (items : List RawItem) (now : Int)
    (pk : Bool) (h : PoolInv p) : PoolInv (add_servers p items now pk).2 := by
  obtain ⟨h1, h2, h3, h4, h5⟩ := poolInv_cleanup now h
  have hloop := addLoop_inv (cleanup p now).dead (cleanup p now).assigned now items
    (cleanup p now).available 0 0 0 h1 h4
  refine ⟨?_, ?_, ?_, ?_, ?_⟩
  · rw [add_servers_available]
    exact hloop.1
  · rw [add_servers_assigned]
    exact h2
  · rw [add_servers_dead]
    exact h3
  · intro kv hkv
    rw [add_servers_available] at hkv
    rw [add_servers_assigned, add_servers_dead]
    exact hloop.2 kv hkv
  · intro kv hkv
    rw [add_servers_assigned] at hkv
    rw [add_servers_dead]
    exact h5 kv hkv

theorem poolInv_take {p : ServerPool} (jid : String) (now : Int)
    (hdead : containsKey p.dead jid = false) (h : PoolInv p) :
    PoolInv { p with available := eraseKey p.available jid,
                     assigned := setKey p.assigned jid now,
                     stats := { p.stats with
                                  total_given := p.stats.total_given + 1 } } := by
  obtain ⟨h1, h2, h3, h4, h5⟩ := h
  refine ⟨NodupKeys_of_sublist (eraseKey_sublist _ _) h1, nodupKeys_setKey h2, h3,
    ?_, ?_⟩
  · intro kv hkv
    obtain ⟨ha, hd⟩ := h4 kv ((eraseKey_sublist _ _).subset hkv)
    have hne : kv.1 ≠ jid := ne_of_mem_eraseKey h1 hkv
    exact ⟨by rw [containsKey_setKey_of_ne hne]; exact ha, hd⟩
  · intro kv hkv
    rcases mem_setKey hkv with hkv | rfl
    · exact h5 kv hkv
    · exact hdead

theorem poolInv_get_server {p : ServerPool} (now : Int) (h : PoolInv p) :
    PoolInv (get_server p now).2 := by
  have hc := poolInv_cleanup now h
  rcases hsel : selectServer (cleanup p now) with _ | ⟨jid, e⟩
  · rw [get_server_none hsel]
    exact hc
  · rw [get_server_some hsel]
    exact poolInv_take jid now (selectServer_not_dead hsel) hc

theorem poolInv_scanBatch (now : Int) (count : Nat) :
    ∀ (l : List (String × ServerEntry)) (p : ServerPool) (acc : List BatchServer),
      PoolInv p → PoolInv (scanBatch now count l p acc).2 := by
  intro l
  induction l with
  | nil =>
    intro p acc h
    exact h
  | cons kv rest ih =>
    intro p acc h
    obtain ⟨jid, e⟩ := kv
    simp only [scanBatch]
    by_cases hcnt : count ≤ acc.length
    · rw [if_pos hcnt]
      exact h
    · rw [if_neg hcnt]
      by_cases hdead : containsKey p.dead jid = true
      · rw [if_pos hdead]
        exact ih _ _ h
      · rw [if_neg hdead]
        exact ih _ _ (poolInv_take jid now (by simpa using hdead) h)

theorem poolInv_get_batch {p : ServerPool} (n : Nat) (now : Int) (h : PoolInv p) :
    PoolInv (get_batch p n now).2 := by
  have hc := poolInv_cleanup now h
  by_cases hemp : (cleanup p now).available.isEmpty
  · rw [show (get_batch p n now).2 = cleanup p now from by simp [get_batch, hemp]]
    exact hc
  · rw [show (get_batch p n now).2 =
        (scanBatch now n (sortServers (cleanup p now).available)
          (cleanup p now) []).2 from by simp [get_batch, hemp]]
    exact poolInv_scanBatch now n _ _ _ hc

theorem poolInv_report_dead {p : ServerPool} (jid : String) (now : Int)
    (h : PoolInv p) : PoolInv (report_dead p jid now) := by
  obtain ⟨h1, h2, h3, h4, h5⟩ := h
  refine ⟨NodupKeys_of_sublist (eraseKey_sublist _ _) h1,
    NodupKeys_of_sublist (eraseKey_sublist _ _) h2, nodupKeys_setKey h3, ?_, ?_⟩
  · intro kv hkv
    have hkv' : kv ∈ eraseKey p.available jid := hkv
    obtain ⟨ha, hd⟩ := h4 kv ((eraseKey_sublist _ _).subset hkv')
    have hne : kv.1 ≠ jid := ne_of_mem_eraseKey h1 hkv'
    constructor
    · exact containsKey_eq_false_of_sublist (eraseKey_sublist _ _) ha
    · show containsKey (setKey p.dead jid now) kv.1 = false
      rw [containsKey_setKey_of_ne hne]
      exact hd
  · intro kv hkv
    have hkv' : kv ∈ eraseKey p.assigned jid := hkv
    have hne : kv.1 ≠ jid := ne_of_mem_eraseKey h2 hkv'
    show containsKey (setKey p.dead jid now) kv.1 = false
    rw [containsKey_setKey_of_ne hne]
    exact h5 kv ((eraseKey_sublist _ _).subset hkv')

theorem poolInv_release {p : ServerPool} (jid : String) (h : PoolInv p) :
    PoolInv (release_server p jid) := by
  obtain ⟨h1, h2, h3, h4, h5⟩ := h
  refine ⟨h1, NodupKeys_of_sublist (eraseKey_sublist _ _) h2, h3, ?_, ?_⟩
  · intro kv hkv
    obtain ⟨ha, hd⟩ := h4 kv hkv
    exact ⟨containsKey_eq_false_of_sublist (eraseKey_sublist _ _) ha, hd⟩
  · intro kv hkv
    exact h5 kv ((eraseKey_sublist _ _).subset hkv)

theorem poolInv_disjoint {p : ServerPool} (h : PoolInv p) : SetsDisjoint p := by
  obtain ⟨h1, h2, h3, h4, h5⟩ := h
  intro id
  refine ⟨?_, ?_, ?_⟩
  · rintro ⟨hav, has⟩
    obtain ⟨v, hv⟩ := containsKey_eq_true.mp hav
    have hfalse := (h4 (id, v) hv).1
    rw [has] at hfalse
    cases hfalse
  · rintro ⟨hav, hdd⟩
    obtain ⟨v, hv⟩ := containsKey_eq_true.mp hav
    have hfalse := (h4 (id, v) hv).2
    rw [hdd] at hfalse
    cases hfalse
  · rintro ⟨has, hdd⟩
    obtain ⟨v, hv⟩ := containsKey_eq_true.mp has
    have hfalse := h5 (id, v) hv
    rw [hdd] at hfalse
    cases hfalse

/-- C10: starting from any pool state satisfying the dict-model invariant
(distinct keys and mutually exclusive sets — true of the initial pool),
every public pool operation (`add_servers`, `get_server`, `get_batch`,
`report_dead`, `release_server`, `get_stats`) yields a state that again
satisfies the invariant, so after every operation no id is ever in more
than one of the Available, Leased, and Dead sets. -/
theorem c10_state_disjointness (p : ServerPool) (items : List RawItem) (now : Int)
    (pk : Bool) (n : Nat) (id : String) (h : PoolInv p) :
    PoolInv initPool ∧
    (PoolInv (add_servers p items now pk).2 ∧
      SetsDisjoint (add_servers p items now pk).2) ∧
    (PoolInv (get_server p now).2 ∧ SetsDisjoint (get_server p now).2) ∧
    (PoolInv (get_batch p n now).2 ∧ SetsDisjoint (get_batch p n now).2) ∧
    (PoolInv (report_dead p id now) ∧ SetsDisjoint (report_dead p id now)) ∧
    (PoolInv (release_server p id) ∧ SetsDisjoint (release_server p id)) ∧
    (PoolInv (get_stats p now).2 ∧ SetsDisjoint (get_stats p now).2) := by
  have hadd := poolInv_add_servers items now pk h
  have hget := poolInv_get_server now h
  have hbatch := poolInv_get_batch n now h
  have hdead := poolInv_report_dead id now h
  have hrel := poolInv_release id h
  have hstats : PoolInv (get_stats p now).2 := poolInv_cleanup now h
  exact ⟨by decide, ⟨hadd, poolInv_disjoint hadd⟩, ⟨hget, poolInv_disjoint hget⟩,
    ⟨hbatch, poolInv_disjoint hbatch⟩, ⟨hdead, poolInv_disjoint hdead⟩,
    ⟨hrel, poolInv_disjoint hrel⟩, ⟨hstats, poolInv_disjoint hstats⟩⟩

/-- Witness for the C10 theorem: after dead-reporting `"a"` on the
five-record scenario pool, `"a"` is not both Available and Dead. -/
theorem c10_state_disjointness_witness :
    ¬(containsKey (report_dead batchPool "a" 0).available "a" = true ∧
      containsKey (report_dead batchPool "a" 0).dead "a" = true) := by
  have h := c10_state_disjointness batchPool [] 0 false 0 "a" (by decide)
  exact ((poolInv_disjoint h.2.2.2.2.1.1) "a").2.1

end MainAPI
